import Mathlib

set_option maxRecDepth 4000

/-!
Shallow embedding of the Job-Scheduler repository and a verification of its
scheduling algorithms.  The repository has three source files:

* main.py            — a genetic-algorithm variant over job tuples and an exact
                       backtracking solver over per-machine interval lists;
* Backtracking.py    — despite its name, the deterministic greedy list
                       scheduler (Kahn topological sort + earliest-start
                       placement on per-machine next-free counters);
* GeneticAlgorithm.py — the genetic optimizer over job-id permutations with
                       the schedule evaluator evaluate_schedule.

Python dictionaries keyed by machine/job ids are modelled as total functions;
the only divergence is that Python raises KeyError on a missing key, which we
exclude by hypotheses where it matters (the spec classifies such inputs as
caller errors, UnknownJobReference).  Random draws are modelled as explicit
choice streams supplied as arguments, so every stochastic operation is a pure
function of its choices.
-/

/-! ## main.py: data model -/

/-- A job record of main.py: the tuples (job_id, operation, machine, proc_time)
read from the jobs table. -/
structure JobM where
  job_id : Int
  operation : Int
  machine : Int
  proc_time : Nat
deriving DecidableEq

/-- The machine_schedule dict of main.py: machine id -> list of committed
(job_id, start, end) intervals.  The Python dict has exactly the listed
machines as keys (each initially []); it is modelled as a total function, so a
lookup of an unlisted machine yields [] here where Python raises KeyError. -/
def MSched : Type := Int → List (Int × Nat × Nat)

/-- is_safe of main.py: a candidate [start, stop) interval is safe on a machine
iff for every committed interval (jid, s, e) we have stop <= s or start >= e. -/
def is_safe (committed : List (Int × Nat × Nat)) (start stop : Nat) : Bool :=
  committed.all (fun c => decide (stop ≤ c.2.1) || decide (c.2.2 ≤ start))

/-- machine_schedule[machine].append(interval) of main.py. -/
def pushMS (ms : MSched) (m : Int) (c : Int × Nat × Nat) : MSched :=
  fun x => if x = m then ms x ++ [c] else ms x

/-- machine_schedule[machine].pop() of main.py (drop the last interval). -/
def popMS (ms : MSched) (m : Int) : MSched :=
  fun x => if x = m then (ms x).dropLast else ms x

/-- The inner candidate-start loop of backtrack in main.py for the job at the
current index: try each start in the given list in order; if safe, commit the
interval, recurse (bt), and on failure pop the interval back off and continue.
The state is threaded exactly as the mutable dict is in Python: a failed
recursive call hands back whatever state it left behind, and pop is applied to
that state. -/
def goS (bt : MSched → Bool × MSched) (m jid : Int) (pt : Nat) :
    List Nat → MSched → Bool × MSched
  | [], ms => (false, ms)
  | s :: ss, ms =>
    if is_safe (ms m) s (s + pt) then
      let res := bt (pushMS ms m (jid, s, s + pt))
      if res.1 then res
      else goS bt m jid pt ss (popMS res.2 m)
    else goS bt m jid pt ss ms

/-- backtrack of main.py: index i == len(jobs) succeeds; otherwise try the
candidate start times range(0, 100) for jobs[i]. -/
def backtrackS : List JobM → MSched → Bool × MSched
  | [], ms => (true, ms)
  | j :: rest, ms =>
    goS (backtrackS rest) j.machine j.job_id j.proc_time (List.range 100) ms

/-- backtracking_algorithm of main.py: run backtrack from index 0 on the empty
per-machine schedule ({m: [] for m in machines}); return the final
machine_schedule on success, None (here: none) on failure.  The machines list
only fixes the dict keys in Python; jobs must reference listed machines. -/
def backtracking_algorithm (jobs : List JobM) (machines : List Int) :
    Option MSched :=
  let res := backtrackS jobs (fun _ => [])
  if res.1 then some res.2 else none

/-! ## main.py: genetic-algorithm variant -/

/-- The loop body of create_schedule in main.py: jobs are placed in individual
order, each starting at its machine's current end time. -/
def create_schedule_aux :
    List JobM → (Int → List (Int × Nat × Nat)) → (Int → Nat) →
      (Int → List (Int × Nat × Nat))
  | [], sched, _ => sched
  | j :: rest, sched, ends =>
    let s := ends j.machine
    let e := s + j.proc_time
    create_schedule_aux rest
      (fun m => if m = j.machine then sched m ++ [(j.job_id, s, e)] else sched m)
      (fun m => if m = j.machine then e else ends m)

/-- create_schedule of main.py: machine_schedule / machine_end_times start
empty resp. zero for every machine key. -/
def create_schedule (machines : List Int) (individual : List JobM) :
    Int → List (Int × Nat × Nat) :=
  create_schedule_aux individual (fun _ => []) (fun _ => 0)

/-- The machine_times accumulation inside fitness of main.py:
machine_times[machine] += proc_time for each job of the schedule, starting
from the given initial table. -/
def machine_times_acc (schedule : List JobM) (init : Int → Nat) : Int → Nat :=
  schedule.foldl
    (fun f j => fun x => if x = j.machine then f j.machine + j.proc_time else f x)
    init

/-- fitness of main.py: max over the listed machines of the summed processing
times (Python: max(machine_times.values()); the fold from 0 agrees with it for
a non-empty machine list, where Python's max is defined). -/
def fitness (machines : List Int) (schedule : List JobM) : Nat :=
  machines.foldl (fun a m => max a (machine_times_acc schedule (fun _ => 0) m)) 0

/-- crossover, shared shape of both GA variants: the first parent's genes up to
the cut point, then the second parent's genes in order, skipping any already
present (Python: parent1[:point] + [job for job in parent2 if job not in
parent1[:point]]). -/
def crossover {α : Type} [DecidableEq α] (parent1 parent2 : List α)
    (point : Nat) : List α :=
  parent1.take point ++
    parent2.filter (fun j => decide (j ∉ parent1.take point))

/-- The in-place two-position swap used by both mutate implementations. -/
def swapTwo {α : Type} (l : List α) (i j : Nat) : List α :=
  match l.get? i, l.get? j with
  | some a, some b => (l.set i b).set j a
  | _, _ => l

/-- mutate of main.py applied to one individual: with the drawn coin, swap two
drawn positions of range(len(individual)) (indices modelled modulo length). -/
def mutate (doSwap : Bool) (i j : Nat) (individual : List JobM) : List JobM :=
  if doSwap then
    swapTwo individual (i % individual.length) (j % individual.length)
  else individual

/-- Python's sorted, modelled as a stable insertion sort with a boolean
less-or-equal test. -/
def insertSorted {α : Type} (le : α → α → Bool) (a : α) : List α → List α
  | [] => [a]
  | b :: bs => if le a b then a :: b :: bs else b :: insertSorted le a bs

/-- Python's sorted (stable, ascending). -/
def sortedPy {α : Type} (le : α → α → Bool) : List α → List α
  | [] => []
  | a :: as => insertSorted le a (sortedPy le as)

/-- The generation loop of main.py pairs up consecutive survivors
(for i in range(0, len(population), 2) with i+1 < len(population)). -/
def pairUp {α : Type} : List α → List (α × α)
  | a :: b :: rest => (a, b) :: pairUp rest
  | _ => []

/-- The random draws consumed by one survivor pair in main.py's generation
loop: a crossover point and a mutation draw for each of the two children. -/
structure MChoice where
  cutA : Nat
  cutB : Nat
  mutA : Bool
  a1 : Nat
  a2 : Nat
  mutB : Bool
  b1 : Nat
  b2 : Nat

/-- One generation round of main.py's genetic_algorithm: sort by fitness,
truncate to population_size, produce two crossed-over and mutated children per
consecutive survivor pair, and extend (append to) the truncated population.
random.randint(0, len(jobs)-1) is modelled as the drawn number modulo
len(jobs). -/
def mainRound (jobs : List JobM) (machines : List Int) (population_size : Nat)
    (σ : Nat → MChoice) (population : List (List JobM)) : List (List JobM) :=
  let sorted :=
    (sortedPy (fun a b => decide (fitness machines a ≤ fitness machines b))
      population).take population_size
  let next_generation := (pairUp sorted).enum.flatMap (fun p =>
    let c := σ p.1
    [mutate c.mutA c.a1 c.a2 (crossover p.2.1 p.2.2 (c.cutA % jobs.length)),
     mutate c.mutB c.b1 c.b2 (crossover p.2.2 p.2.1 (c.cutB % jobs.length))])
  sorted ++ next_generation

/-! ## Backtracking.py / GeneticAlgorithm.py: data model and list scheduler.
The two files contain an identical Job class and JobScheduler graph code;
Backtracking.py adds the greedy list scheduler schedule_jobs, and
GeneticAlgorithm.py adds evaluate_schedule plus the genetic optimizer. -/

/-- The Job class of Backtracking.py / GeneticAlgorithm.py. -/
structure Job where
  job_id : Int
  processing_time : Nat
  required_machines : List String
deriving DecidableEq

/-- self.graph of the JobScheduler: predecessor -> list of successors,
built by appending v to graph[u] for each dependency (u, v). -/
def graphOf (dependencies : List (Int × Int)) (u : Int) : List Int :=
  (dependencies.filter (fun d => decide (d.1 = u))).map (fun d => d.2)

/-- self.in_degree of the JobScheduler: the number of dependencies whose
successor is v (an Int, since Python decrements it during Kahn's algorithm). -/
def in_degreeOf (dependencies : List (Int × Int)) (v : Int) : Int :=
  Int.ofNat (dependencies.countP (fun d => decide (d.2 = v)))

/-- Processing one popped job u in topological_sort: decrement the in-degree
of each successor of u in order, appending any that reach zero to the queue. -/
def kahnStep (graph : Int → List Int) (u : Int) (indeg : Int → Int)
    (queue : List Int) : (Int → Int) × List Int :=
  (graph u).foldl
    (fun st v =>
      ((fun x => if x = v then st.1 v - 1 else st.1 x),
       if st.1 v - 1 = 0 then st.2 ++ [v] else st.2))
    (indeg, queue)

/-- The while-queue loop of topological_sort.  Python's loop needs no fuel; it
pops at most (number of jobs + number of dependencies) times, so callers pass
fuel at least that and the zero-fuel branch is never reached. -/
def kahnLoop (graph : Int → List Int) :
    Nat → List Int → (Int → Int) → List Int → List Int
  | 0, _, _, topo => topo
  | _ + 1, [], _, topo => topo
  | fuel + 1, u :: queue, indeg, topo =>
    let st := kahnStep graph u indeg queue
    kahnLoop graph fuel st.2 st.1 (topo ++ [u])

/-- topological_sort of the JobScheduler: Kahn's algorithm seeded with the
zero-in-degree jobs in job-insertion order; returns [] when the output is
shorter than the job count (a cycle). -/
def topological_sort (jobs : List Job) (dependencies : List (Int × Int)) :
    List Int :=
  let indeg := in_degreeOf dependencies
  let queue := (jobs.map (fun j => j.job_id)).filter (fun i => decide (indeg i = 0))
  let topo := kahnLoop (graphOf dependencies)
    (jobs.length + dependencies.length + 1) queue indeg []
  if topo.length = jobs.length then topo else []

/-- self.jobs[job_id]: dictionary lookup of a job by id.  Python raises
KeyError on a miss; every order passed in the source is drawn from the job-id
key set, so the default is never reached there. -/
def lookupJob (jobs : List Job) (i : Int) : Job :=
  (jobs.find? (fun j => decide (j.job_id = i))).getD ⟨i, 0, []⟩

/-- The placement loop shared by schedule_jobs of Backtracking.py and
schedule_jobs of GeneticAlgorithm.py: each job starts at the max next-free
time of its required machines, which are then all advanced to start +
processing_time.  Records (job, start) pairs in placement order. -/
def schedule_jobs_aux : List Job → (String → Nat) → List (Job × Nat)
  | [], _ => []
  | j :: rest, usage =>
    let start := j.required_machines.foldl (fun a m => max a (usage m)) 0
    (j, start) ::
      schedule_jobs_aux rest
        (fun m => if m ∈ j.required_machines then start + j.processing_time
                  else usage m)

/-- schedule_jobs of Backtracking.py (the list scheduler): topological sort,
then greedy placement over that order; returns [] when no valid topological
order exists. -/
def schedule_jobs (jobs : List Job) (dependencies : List (Int × Int)) :
    List (Job × Nat) :=
  let topo := topological_sort jobs dependencies
  if topo.isEmpty then []
  else schedule_jobs_aux (topo.map (lookupJob jobs)) (fun _ => 0)

/-- schedule_jobs of GeneticAlgorithm.py: the same placement applied to a
caller-supplied order of job ids (the GA's best individual). -/
def ga_schedule_jobs (jobs : List Job) (order : List Int) : List (Job × Nat) :=
  schedule_jobs_aux (order.map (lookupJob jobs)) (fun _ => 0)

/-- The walk of evaluate_schedule in GeneticAlgorithm.py.  For each job id of
the candidate order it first iterates self.graph[job_id] — the SUCCESSOR list
of the job — and yields float('inf') (here ⊤) if any of them has no start time
assigned yet; otherwise it places the job greedily.  The final makespan is
max(machine_usage.values()) over the machine keys. -/
def evalLoop (jobs : List Job) (dependencies : List (Int × Int))
    (machines : List String) :
    List Int → (String → Nat) → List Int → WithTop Nat
  | [], usage, _ =>
    ((machines.foldl (fun a m => max a (usage m)) 0 : Nat) : WithTop Nat)
  | i :: rest, usage, assigned =>
    if (graphOf dependencies i).all (fun d => assigned.contains d) then
      let j := lookupJob jobs i
      let start := j.required_machines.foldl (fun a m => max a (usage m)) 0
      evalLoop jobs dependencies machines rest
        (fun m => if m ∈ j.required_machines then start + j.processing_time
                  else usage m)
        (assigned ++ [i])
    else ⊤

/-- evaluate_schedule of GeneticAlgorithm.py. -/
def evaluate_schedule (jobs : List Job) (dependencies : List (Int × Int))
    (machines : List String) (order : List Int) : WithTop Nat :=
  evalLoop jobs dependencies machines order (fun _ => 0) []

/-- Python list comparison (lexicographic, strict less-than) used to break
fitness ties when sorting zip(fitness, population). -/
def lexLT : List Int → List Int → Bool
  | _, [] => false
  | [], _ :: _ => true
  | a :: as, b :: bs =>
    if a < b then true else if b < a then false else lexLT as bs

/-- Python tuple comparison on (fitness, individual) pairs, as a
less-or-equal test for the stable sort. -/
def pairLE (a b : WithTop Nat × List Int) : Bool :=
  if a.1 = b.1 then !(lexLT b.2 a.2) else decide (a.1 ≤ b.1)

/-- The random draws consumed per child in GeneticAlgorithm.py's generation
loop: the two sampled parent positions, the crossover point, and the mutation
draw applied to the finished child. -/
structure GAChoice where
  p1 : Nat
  p2 : Nat
  cut : Nat
  doMut : Bool
  m1 : Nat
  m2 : Nat

/-- mutate of GeneticAlgorithm.py applied to one individual: positions are
drawn from range(len(self.jobs)) (modelled modulo the job count). -/
def mutateGA (numJobs : Nat) (c : GAChoice) (individual : List Int) :
    List Int :=
  if c.doMut then
    swapTwo individual (c.m1 % numJobs) (c.m2 % numJobs)
  else individual

/-- One generation round of genetic_algorithm in GeneticAlgorithm.py: evaluate
fitness, sort zip(fitness, population), keep the top half, then the while loop
appends one crossover child per iteration until exactly population_size
children exist; finally each child is (possibly) mutated.  The new population
replaces the old one.  random.sample / random.randint draws are modelled by
the choice stream (positions modulo the relevant sizes). -/
def gaRound (jobs : List Job) (dependencies : List (Int × Int))
    (machines : List String) (population_size : Nat) (σ : Nat → GAChoice)
    (population : List (List Int)) : List (List Int) :=
  let fit := population.map (evaluate_schedule jobs dependencies machines)
  let sorted_population := (sortedPy pairLE (fit.zip population)).map (fun p => p.2)
  let survivors := sorted_population.take (population_size / 2)
  let new_population := (List.range population_size).map (fun i =>
    let c := σ i
    crossover (survivors.getD (c.p1 % survivors.length) [])
      (survivors.getD (c.p2 % survivors.length) [])
      (1 + c.cut % (jobs.length - 1)))
  new_population.enum.map (fun p => mutateGA jobs.length (σ p.1) p.2)

/-! ## Interval relations used by the correctness statements -/

/-- On every machine shared by two placed jobs, the earlier one completes
before the later one starts. -/
def laterAfter (a b : Job × Nat) : Prop :=
  ∀ m, m ∈ a.1.required_machines → m ∈ b.1.required_machines →
    a.2 + a.1.processing_time ≤ b.2

/-- Machine exclusivity for two placed jobs: on every shared machine their
[start, start + processing_time) intervals do not overlap. -/
def machExcl (a b : Job × Nat) : Prop :=
  ∀ m, m ∈ a.1.required_machines → m ∈ b.1.required_machines →
    a.2 + a.1.processing_time ≤ b.2 ∨ b.2 + b.1.processing_time ≤ a.2

/-- Two committed (job_id, start, end) intervals do not overlap. -/
def disjTriple (a b : Int × Nat × Nat) : Prop :=
  a.2.2 ≤ b.2.1 ∨ b.2.2 ≤ a.2.1

/-! ## List scheduler: helper lemmas -/

lemma foldl_max_init_le (usage : String → Nat) :
    ∀ (l : List String) (init : Nat),
      init ≤ l.foldl (fun a m => max a (usage m)) init
  | [], _ => le_refl _
  | b :: bs, init =>
    le_trans (le_max_left init (usage b))
      (foldl_max_init_le usage bs (max init (usage b)))

lemma mem_le_foldl_max (usage : String → Nat) :
    ∀ (l : List String) (init : Nat) (m : String), m ∈ l →
      usage m ≤ l.foldl (fun a m => max a (usage m)) init := by
  intro l
  induction l with
  | nil => intro init m h; cases h
  | cons b bs ih =>
    intro init m h
    rcases List.mem_cons.mp h with h | h
    · subst h
      exact le_trans (le_max_right init (usage m))
        (foldl_max_init_le usage bs (max init (usage m)))
    · exact ih (max init (usage b)) m h

/-- Every job placed by the greedy loop starts no earlier than the entry
next-free time of each of its required machines. -/
lemma schedule_jobs_aux_start_le :
    ∀ (jobs : List Job) (usage : String → Nat) (p : Job × Nat),
      p ∈ schedule_jobs_aux jobs usage →
      ∀ m ∈ p.1.required_machines, usage m ≤ p.2 := by
  intro jobs
  induction jobs with
  | nil => intro usage p h; cases h
  | cons j rest ih =>
    intro usage p h m hm
    rcases List.mem_cons.mp h with h | h
    · subst h
      exact mem_le_foldl_max usage j.required_machines 0 m hm
    · have step := ih _ p h m hm
      by_cases hmem : m ∈ j.required_machines
      · have : usage m ≤
            j.required_machines.foldl (fun a x => max a (usage x)) 0 +
              j.processing_time := by
          exact le_trans (mem_le_foldl_max usage j.required_machines 0 m hmem)
            (Nat.le_add_right _ _)
        simpa [hmem] using le_trans this (by simpa [hmem] using step)
      · simpa [hmem] using step

/-- Greedy placement: an earlier-placed job completes before any later-placed
job starts, on every machine they share. -/
lemma schedule_jobs_aux_laterAfter :
    ∀ (jobs : List Job) (usage : String → Nat),
      List.Pairwise laterAfter (schedule_jobs_aux jobs usage) := by
  intro jobs
  induction jobs with
  | nil => intro usage; exact List.Pairwise.nil
  | cons j rest ih =>
    intro usage
    refine List.Pairwise.cons ?_ (ih _)
    intro b hb m hm1 hm2
    have := schedule_jobs_aux_start_le rest _ b hb m hm2
    simpa [hm1] using this

/-! ## create_schedule (main.py): helper lemma -/

lemma create_schedule_aux_pairwise :
    ∀ (l : List JobM) (sched : Int → List (Int × Nat × Nat)) (ends : Int → Nat),
      (∀ m, ∀ c ∈ sched m, c.2.2 ≤ ends m) →
      (∀ m, List.Pairwise disjTriple (sched m)) →
      ∀ m, List.Pairwise disjTriple (create_schedule_aux l sched ends m) := by
  intro l
  induction l with
  | nil => intro sched ends _ hpw m; exact hpw m
  | cons j rest ih =>
    intro sched ends hend hpw m
    refine ih _ _ ?_ ?_ m
    · intro x c hc
      by_cases hx : x = j.machine
      · simp only [hx, if_pos rfl] at hc ⊢
        rcases List.mem_append.mp hc with hc | hc
        · exact le_trans (hend j.machine c hc) (Nat.le_add_right _ _)
        · simp only [List.mem_singleton] at hc
          subst hc
          exact le_refl _
      · simp only [hx, if_neg hx] at hc ⊢
        exact hend x c hc
    · intro x
      by_cases hx : x = j.machine
      · simp only [hx, if_true, eq_self_iff_true]
        rw [List.pairwise_append]
        refine ⟨hpw j.machine, List.pairwise_singleton _ _, ?_⟩
        intro a ha b hb
        simp only [List.mem_singleton] at hb
        subst hb
        exact Or.inl (hend j.machine a ha)
      · simp only [hx, if_neg hx]
        exact hpw x

/-! ## Backtracking solver (main.py): helper lemmas -/

lemma popMS_pushMS (ms : MSched) (m : Int) (c : Int × Nat × Nat) :
    popMS (pushMS ms m c) m = ms := by
  funext x
  by_cases hx : x = m
  · simp [popMS, pushMS, hx, List.dropLast_concat]
  · simp [popMS, pushMS, hx]

/-- If the whole candidate loop for one job fails, the machine schedule is
returned exactly as it was entered (given the same for the recursive call). -/
lemma goS_fail_state (bt : MSched → Bool × MSched) (m jid : Int) (pt : Nat)
    (hbt : ∀ ms, (bt ms).1 = false → (bt ms).2 = ms) :
    ∀ (ss : List Nat) (ms : MSched),
      (goS bt m jid pt ss ms).1 = false → (goS bt m jid pt ss ms).2 = ms := by
  intro ss
  induction ss with
  | nil => intro ms _; rfl
  | cons s ss ih =>
    intro ms hfail
    by_cases hsafe : is_safe (ms m) s (s + pt) = true
    · rcases hres : bt (pushMS ms m (jid, s, s + pt)) with ⟨b, ms2⟩
      cases b
      · have hms2 : ms2 = pushMS ms m (jid, s, s + pt) := by
          have := hbt (pushMS ms m (jid, s, s + pt))
          rw [hres] at this
          exact this rfl
        have hrw : goS bt m jid pt (s :: ss) ms =
            goS bt m jid pt ss (popMS ms2 m) := by
          simp [goS, hsafe, hres]
        rw [hrw] at hfail ⊢
        rw [hms2, popMS_pushMS] at hfail ⊢
        exact ih ms hfail
      · have : goS bt m jid pt (s :: ss) ms = (true, ms2) := by
          simp [goS, hsafe, hres]
        rw [this] at hfail
        cases hfail
    · have hrw : goS bt m jid pt (s :: ss) ms = goS bt m jid pt ss ms := by
        simp [goS, hsafe]
      rw [hrw] at hfail ⊢
      exact ih ms hfail

/-- Failure of backtrack leaves the machine schedule exactly as entered: every
commit of the failed subtree has been undone by the matching pop. -/
lemma backtrackS_fail_state :
    ∀ (l : List JobM) (ms : MSched),
      (backtrackS l ms).1 = false → (backtrackS l ms).2 = ms := by
  intro l
  induction l with
  | nil => intro ms h; cases h
  | cons j rest ih =>
    intro ms h
    exact goS_fail_state (backtrackS rest) j.machine j.job_id j.proc_time ih
      (List.range 100) ms h

/-- The committed-interval invariant: on every machine the committed intervals
are pairwise non-overlapping.  It is preserved by a successful search. -/
lemma goS_pairwise (bt : MSched → Bool × MSched) (m jid : Int) (pt : Nat)
    (hfail : ∀ ms, (bt ms).1 = false → (bt ms).2 = ms)
    (hsucc : ∀ ms, (∀ x, List.Pairwise disjTriple (ms x)) → (bt ms).1 = true →
      ∀ x, List.Pairwise disjTriple ((bt ms).2 x)) :
    ∀ (ss : List Nat) (ms : MSched),
      (∀ x, List.Pairwise disjTriple (ms x)) →
      (goS bt m jid pt ss ms).1 = true →
      ∀ x, List.Pairwise disjTriple ((goS bt m jid pt ss ms).2 x) := by
  intro ss
  induction ss with
  | nil => intro ms _ h; cases h
  | cons s ss ih =>
    intro ms hinv htrue
    have hpushinv : is_safe (ms m) s (s + pt) = true →
        ∀ x, List.Pairwise disjTriple ((pushMS ms m (jid, s, s + pt)) x) := by
      intro hsafe x
      by_cases hx : x = m
      · simp only [pushMS, hx, if_true, eq_self_iff_true]
        rw [List.pairwise_append]
        refine ⟨hinv m, List.pairwise_singleton _ _, ?_⟩
        intro a ha b hb
        simp only [List.mem_singleton] at hb
        subst hb
        have := (List.all_eq_true.mp hsafe) a ha
        rcases Bool.or_eq_true_iff.mp this with h | h
        · exact Or.inr (of_decide_eq_true h)
        · exact Or.inl (of_decide_eq_true h)
      · simp only [pushMS, hx, if_neg hx]
        exact hinv x
    by_cases hsafe : is_safe (ms m) s (s + pt) = true
    · rcases hres : bt (pushMS ms m (jid, s, s + pt)) with ⟨b, ms2⟩
      cases b
      · have hms2 : ms2 = pushMS ms m (jid, s, s + pt) := by
          have := hfail (pushMS ms m (jid, s, s + pt))
          rw [hres] at this
          exact this rfl
        have hrw : goS bt m jid pt (s :: ss) ms =
            goS bt m jid pt ss (popMS ms2 m) := by
          simp [goS, hsafe, hres]
        rw [hrw] at htrue ⊢
        rw [hms2, popMS_pushMS] at htrue ⊢
        exact ih ms hinv htrue
      · have hrw : goS bt m jid pt (s :: ss) ms = (true, ms2) := by
          simp [goS, hsafe, hres]
        rw [hrw]
        intro x
        have := hsucc (pushMS ms m (jid, s, s + pt)) (hpushinv hsafe)
        rw [hres] at this
        exact this rfl x
    · have hrw : goS bt m jid pt (s :: ss) ms = goS bt m jid pt ss ms := by
        simp [goS, hsafe]
      rw [hrw] at htrue ⊢
      exact ih ms hinv htrue

/-- A successful backtracking search preserves pairwise non-overlap of the
committed intervals on every machine. -/
lemma backtrackS_pairwise :
    ∀ (l : List JobM) (ms : MSched),
      (∀ x, List.Pairwise disjTriple (ms x)) →
      (backtrackS l ms).1 = true →
      ∀ x, List.Pairwise disjTriple ((backtrackS l ms).2 x) := by
  intro l
  induction l with
  | nil => intro ms hinv _ x; exact hinv x
  | cons j rest ih =>
    intro ms hinv htrue
    exact goS_pairwise (backtrackS rest) j.machine j.job_id j.proc_time
      (backtrackS_fail_state rest) ih (List.range 100) ms hinv htrue

/-! ## Backtracking solver: exhaustiveness / completeness -/

/-- Sequential feasibility: job by job in list order, some start below the
horizon 100 is safe against everything committed so far. -/
def SeqFeasible : List JobM → MSched → Prop
  | [], _ => True
  | j :: rest, ms =>
    ∃ s, s < 100 ∧ is_safe (ms j.machine) s (s + j.proc_time) = true ∧
      SeqFeasible rest (pushMS ms j.machine (j.job_id, s, s + j.proc_time))

lemma is_safe_iff (committed : List (Int × Nat × Nat)) (start stop : Nat) :
    is_safe committed start stop = true ↔
      ∀ c ∈ committed, stop ≤ c.2.1 ∨ c.2.2 ≤ start := by
  unfold is_safe
  rw [List.all_eq_true]
  constructor
  · intro h c hc
    rcases Bool.or_eq_true_iff.mp (h c hc) with h1 | h1
    · exact Or.inl (of_decide_eq_true h1)
    · exact Or.inr (of_decide_eq_true h1)
  · intro h c hc
    rcases h c hc with h1 | h1
    · exact Bool.or_eq_true_iff.mpr (Or.inl (decide_eq_true h1))
    · exact Bool.or_eq_true_iff.mpr (Or.inr (decide_eq_true h1))

/-- The candidate loop succeeds iff some listed start is safe and lets the
rest of the search succeed from the correspondingly extended state. -/
lemma goS_true_iff (bt : MSched → Bool × MSched) (m jid : Int) (pt : Nat)
    (hfail : ∀ ms, (bt ms).1 = false → (bt ms).2 = ms) :
    ∀ (ss : List Nat) (ms : MSched),
      (goS bt m jid pt ss ms).1 = true ↔
        ∃ s ∈ ss, is_safe (ms m) s (s + pt) = true ∧
          (bt (pushMS ms m (jid, s, s + pt))).1 = true := by
  intro ss
  induction ss with
  | nil =>
    intro ms
    simp [goS]
  | cons s ss ih =>
    intro ms
    by_cases hsafe : is_safe (ms m) s (s + pt) = true
    · rcases hres : bt (pushMS ms m (jid, s, s + pt)) with ⟨b, ms2⟩
      cases b
      · have hms2 : ms2 = pushMS ms m (jid, s, s + pt) := by
          have := hfail (pushMS ms m (jid, s, s + pt))
          rw [hres] at this
          exact this rfl
        have hrw : goS bt m jid pt (s :: ss) ms =
            goS bt m jid pt ss (popMS ms2 m) := by
          simp [goS, hsafe, hres]
        rw [hrw, hms2, popMS_pushMS]
        rw [ih ms]
        constructor
        · rintro ⟨t, ht, hts, htb⟩
          exact ⟨t, List.mem_cons_of_mem s ht, hts, htb⟩
        · rintro ⟨t, ht, hts, htb⟩
          rcases List.mem_cons.mp ht with h | h
          · subst h
            rw [hres] at htb
            cases htb
          · exact ⟨t, h, hts, htb⟩
      · have hrw : goS bt m jid pt (s :: ss) ms = (true, ms2) := by
          simp [goS, hsafe, hres]
        rw [hrw]
        constructor
        · intro _
          refine ⟨s, List.mem_cons_self s ss, hsafe, ?_⟩
          rw [hres]
        · intro _
          rfl
    · have hrw : goS bt m jid pt (s :: ss) ms = goS bt m jid pt ss ms := by
        simp [goS, hsafe]
      rw [hrw, ih ms]
      constructor
      · rintro ⟨t, ht, hts, htb⟩
        exact ⟨t, List.mem_cons_of_mem s ht, hts, htb⟩
      · rintro ⟨t, ht, hts, htb⟩
        rcases List.mem_cons.mp ht with h | h
        · subst h
          exact absurd hts hsafe
        · exact ⟨t, h, hts, htb⟩

/-- backtrack succeeds iff the job list is sequentially feasible from the
entry state: it fails only once every start in the horizon has been exhausted
for some job, at every level of the search. -/
lemma backtrackS_true_iff :
    ∀ (l : List JobM) (ms : MSched),
      (backtrackS l ms).1 = true ↔ SeqFeasible l ms := by
  intro l
  induction l with
  | nil => intro ms; simp [backtrackS, SeqFeasible]
  | cons j rest ih =>
    intro ms
    rw [show backtrackS (j :: rest) ms =
        goS (backtrackS rest) j.machine j.job_id j.proc_time
          (List.range 100) ms from rfl]
    rw [goS_true_iff (backtrackS rest) j.machine j.job_id j.proc_time
      (backtrackS_fail_state rest) (List.range 100) ms]
    unfold SeqFeasible
    constructor
    · rintro ⟨s, hs, hsafe, hb⟩
      exact ⟨s, List.mem_range.mp hs, hsafe, (ih _).mp hb⟩
    · rintro ⟨s, hs, hsafe, hb⟩
      exact ⟨s, List.mem_range.mpr hs, hsafe, (ih _).mpr hb⟩

/-- A placed job does not overlap any interval already committed on its
machine in the given state. -/
def freeOf (ms : MSched) (p : JobM × Nat) : Prop :=
  ∀ c ∈ ms p.1.machine, p.2 + p.1.proc_time ≤ c.2.1 ∨ c.2.2 ≤ p.2

/-- Two placed jobs' intervals do not overlap whenever they need the same
machine. -/
def disjWith (a b : JobM × Nat) : Prop :=
  a.1.machine = b.1.machine →
    (a.2 + a.1.proc_time ≤ b.2 ∨ b.2 + b.1.proc_time ≤ a.2)

/-- A feasible assignment for the job list: one start time per job, all below
the horizon 100, the per-machine intervals pairwise non-overlapping, and each
avoiding everything already committed in the entry state. -/
def Feasible (ms : MSched) (jobs : List JobM) : Prop :=
  ∃ starts : List Nat, starts.length = jobs.length ∧
    (∀ s ∈ starts, s < 100) ∧
    List.Pairwise disjWith (jobs.zip starts) ∧
    ∀ p ∈ jobs.zip starts, freeOf ms p

lemma is_safe_iff_freeOf (ms : MSched) (j : JobM) (s : Nat) :
    is_safe (ms j.machine) s (s + j.proc_time) = true ↔ freeOf ms (j, s) := by
  rw [is_safe_iff]
  rfl

lemma seqFeasible_iff_feasible :
    ∀ (jobs : List JobM) (ms : MSched), SeqFeasible jobs ms ↔ Feasible ms jobs := by
  intro jobs
  induction jobs with
  | nil =>
    intro ms
    constructor
    · intro _
      exact ⟨[], rfl, by simp, by simp, by simp⟩
    · intro _
      trivial
  | cons j rest ih =>
    intro ms
    constructor
    · rintro ⟨s, hs100, hsafe, hseq⟩
      rcases (ih _).mp hseq with ⟨starts, hlen, h100, hpw, hfree⟩
      refine ⟨s :: starts, by simp [hlen], ?_, ?_, ?_⟩
      · intro t ht
        rcases List.mem_cons.mp ht with h | h
        · subst h; exact hs100
        · exact h100 t h
      · rw [List.zip_cons_cons]
        refine List.Pairwise.cons ?_ hpw
        intro p hp hmach
        have hfp := hfree p hp
        have hnew : (j.job_id, s, s + j.proc_time) ∈
            (pushMS ms j.machine (j.job_id, s, s + j.proc_time)) p.1.machine := by
          simp [pushMS, hmach.symm]
        rcases hfp _ hnew with h | h
        · exact Or.inr h
        · exact Or.inl h
      · rw [List.zip_cons_cons]
        intro p hp
        rcases List.mem_cons.mp hp with h | h
        · subst h
          exact (is_safe_iff_freeOf ms j s).mp hsafe
        · have hfp := hfree p h
          intro c hc
          refine hfp c ?_
          by_cases hx : p.1.machine = j.machine
          · rw [hx] at hc
            simp [pushMS, hx, List.mem_append]
            exact Or.inl hc
          · simpa [pushMS, hx] using hc
    · rintro ⟨starts, hlen, h100, hpw, hfree⟩
      rcases starts with _ | ⟨s, starts⟩
      · cases hlen
      · rw [List.zip_cons_cons] at hpw hfree
        have hhead := List.pairwise_cons.mp hpw
        refine ⟨s, h100 s (List.mem_cons_self s starts), ?_, ?_⟩
        · exact (is_safe_iff_freeOf ms j s).mpr
            (hfree (j, s) (List.mem_cons_self _ _))
        · refine (ih _).mpr ⟨starts, by simpa using hlen, ?_, hhead.2, ?_⟩
          · intro t ht
            exact h100 t (List.mem_cons_of_mem s ht)
          · intro p hp c hc
            by_cases hx : p.1.machine = j.machine
            · rw [show (pushMS ms j.machine (j.job_id, s, s + j.proc_time))
                  p.1.machine = ms p.1.machine ++ [(j.job_id, s, s + j.proc_time)]
                  by simp [pushMS, hx]] at hc
              rcases List.mem_append.mp hc with hc | hc
              · exact hfree p (List.mem_cons_of_mem _ hp) c hc
              · simp only [List.mem_singleton] at hc
                subst hc
                rcases hhead.1 p hp hx.symm with h | h
                · exact Or.inr h
                · exact Or.inl h
            · rw [show (pushMS ms j.machine (j.job_id, s, s + j.proc_time))
                  p.1.machine = ms p.1.machine by simp [pushMS, hx]] at hc
              exact hfree p (List.mem_cons_of_mem _ hp) c hc

/-! ## Genetic-algorithm rounds: length helpers -/

lemma insertSorted_length {α : Type} (le : α → α → Bool) (a : α) :
    ∀ l : List α, (insertSorted le a l).length = l.length + 1
  | [] => rfl
  | b :: bs => by
    by_cases h : le a b = true
    · simp [insertSorted, h]
    · simp [insertSorted, h, insertSorted_length le a bs]

lemma sortedPy_length {α : Type} (le : α → α → Bool) :
    ∀ l : List α, (sortedPy le l).length = l.length
  | [] => rfl
  | a :: as => by
    simp [sortedPy, insertSorted_length, sortedPy_length le as]

lemma pairUp_length {α : Type} :
    ∀ l : List α, (pairUp l).length = l.length / 2
  | [] => by simp [pairUp]
  | [_] => by simp [pairUp]
  | _ :: _ :: rest => by
    have := pairUp_length rest
    simp only [pairUp, List.length_cons, this]
    omega

lemma length_flatMap_two {α β : Type} (l : List α) (f g : α → β) :
    (l.flatMap (fun a => [f a, g a])).length = 2 * l.length := by
  induction l with
  | nil => rfl
  | cons a as ih =>
    simp only [List.flatMap_cons, List.length_append, ih, List.length_cons,
      List.length_nil]
    omega

/-! ## main.py fitness: helper lemma -/

lemma machine_times_acc_eq :
    ∀ (schedule : List JobM) (init : Int → Nat) (m : Int),
      machine_times_acc schedule init m =
        init m + ((schedule.filter (fun j => decide (j.machine = m))).map
          (fun j => j.proc_time)).sum := by
  intro schedule
  induction schedule with
  | nil => intro init m; simp [machine_times_acc]
  | cons j rest ih =>
    intro init m
    rw [show machine_times_acc (j :: rest) init = machine_times_acc rest
        (fun x => if x = j.machine then init j.machine + j.proc_time else init x)
      from rfl]
    rw [ih]
    by_cases hm : m = j.machine
    · subst hm
      simp only [List.filter_cons, decide_eq_true_eq, eq_self_iff_true, if_true,
        List.map_cons, List.sum_cons]
      omega
    · have hm' : ¬ j.machine = m := fun h => hm h.symm
      simp [List.filter_cons, hm, hm']

/-! ## Concrete inputs used by the scenario claims -/

/-- The documented test scenario of Backtracking.py / GeneticAlgorithm.py:
jobs 1(A,5), 2(B,8), 3(C,3), 4(A+B,6), 5(B+C,4). -/
def scenarioJobs : List Job :=
  [⟨1, 5, ["A"]⟩, ⟨2, 8, ["B"]⟩, ⟨3, 3, ["C"]⟩,
   ⟨4, 6, ["A", "B"]⟩, ⟨5, 4, ["B", "C"]⟩]

/-- The scenario dependencies: 4 depends on 1; 5 depends on 2 and 3. -/
def scenarioDeps : List (Int × Int) := [(1, 4), (2, 5), (3, 5)]

/-- Any machine schedule returned by backtracking_algorithm has pairwise
non-overlapping intervals on every machine. -/
lemma backtracking_result_pairwise (jobs : List JobM) (machines : List Int)
    (r : MSched) (h : backtracking_algorithm jobs machines = some r) :
    ∀ m, List.Pairwise disjTriple (r m) := by
  intro m
  by_cases hb : (backtrackS jobs (fun _ => [])).1 = true
  · have hr : r = (backtrackS jobs (fun _ => [])).2 := by
      simp only [backtracking_algorithm, hb, if_true] at h
      exact (Option.some_injective _ h).symm
    rw [hr]
    exact backtrackS_pairwise jobs (fun _ => [])
      (fun _ => List.Pairwise.nil) hb m
  · simp only [backtracking_algorithm, hb, if_false, Bool.false_eq_true] at h
    cases h

/-! ## Claims -/

/-- Claim C1: for every Schedule returned by any solver — the list scheduler's
schedule_jobs, the genetic optimizer's final placement (GeneticAlgorithm.py's
schedule_jobs over the best individual, and main.py's create_schedule), and
the backtracking solver — and for every machine, the
[start, start + processing_time) intervals of the jobs assigned to that
machine are pairwise non-overlapping. -/
theorem C1_machine_exclusivity :
    (∀ (jobs : List Job) (dependencies : List (Int × Int)),
        List.Pairwise machExcl (schedule_jobs jobs dependencies)) ∧
    (∀ (jobs : List Job) (order : List Int),
        List.Pairwise machExcl (ga_schedule_jobs jobs order)) ∧
    (∀ (machines : List Int) (individual : List JobM) (m : Int),
        List.Pairwise disjTriple (create_schedule machines individual m)) ∧
    (∀ (jobs : List JobM) (machines : List Int) (r : MSched),
        backtracking_algorithm jobs machines = some r →
        ∀ m, List.Pairwise disjTriple (r m)) := by
  refine ⟨?_, ?_, ?_, ?_⟩
  · intro jobs dependencies
    by_cases h : (topological_sort jobs dependencies).isEmpty = true
    · simp [schedule_jobs, h]
    · simp only [schedule_jobs, h, if_false, Bool.false_eq_true]
      exact (schedule_jobs_aux_laterAfter _ _).imp
        (fun hab m h1 h2 => Or.inl (hab m h1 h2))
  · intro jobs order
    exact (schedule_jobs_aux_laterAfter _ _).imp
      (fun hab m h1 h2 => Or.inl (hab m h1 h2))
  · intro machines individual m
    exact create_schedule_aux_pairwise individual _ _
      (fun _ c hc => absurd hc (List.not_mem_nil c))
      (fun _ => List.Pairwise.nil) m
  · exact backtracking_result_pairwise

/-- Claim C1 witness: the invariant holds on a concretely computed
backtracking result. -/
theorem C1_machine_exclusivity_witness :
    List.Pairwise disjTriple
      (((backtracking_algorithm [⟨1, 0, 1, 5⟩] [1]).getD (fun _ => [])) 1) :=
  C1_machine_exclusivity.2.2.2 [⟨1, 0, 1, 5⟩] [1]
    ((backtracking_algorithm [⟨1, 0, 1, 5⟩] [1]).getD (fun _ => [])) rfl 1

/-- Claim C2 counterexample: with jobs 1 (machine A, time 5) and
2 (machine B, time 1) and the dependency (1, 2), the list scheduler fed its
topologically valid order [1, 2] starts job 2 at 0 < 0 + 5; the backtracking
solver on the analogous two-machine input also starts job 2 at 0.  A
successor can start before its predecessor completes whenever the two share
no machine: neither solver reads the dependency when picking start times. -/
theorem C2_counterexample :
    ((schedule_jobs [⟨1, 5, ["A"]⟩, ⟨2, 1, ["B"]⟩] [(1, 2)]).map
        (fun p => (p.1.job_id, p.2))) = [(1, 0), (2, 0)] ∧
    ¬ ((0 : Nat) + 5 ≤ 0) ∧
    ((backtracking_algorithm [⟨1, 0, 1, 5⟩, ⟨2, 0, 2, 1⟩] [1, 2]).map
        (fun r => (r 1, r 2))) = some ([(1, 0, 5)], [(2, 0, 1)]) :=
  ⟨by decide, by decide, by decide⟩

/-- Claim C2 (amended): for the List Scheduler fed any order (in particular a
topologically valid one), every earlier-placed job completes before any
later-placed job starts on each machine they share — so for a dependency
(p, s) whose jobs share a required machine, start(s) ≥ start(p) +
processing_time(p).  For the Backtracking Solver no start-order guarantee
holds: dependencies are not consulted, and only machine exclusivity is
ensured — any two distinct intervals committed to the same machine do not
overlap, so one of the two jobs completes before the other starts. -/
theorem C2_precedence_amended :
    (∀ (jobs : List Job) (usage : String → Nat),
        List.Pairwise laterAfter (schedule_jobs_aux jobs usage)) ∧
    (∀ (jobs : List JobM) (machines : List Int) (r : MSched),
        backtracking_algorithm jobs machines = some r →
        ∀ m a b, a ∈ r m → b ∈ r m → a ≠ b → disjTriple a b) := by
  constructor
  · exact schedule_jobs_aux_laterAfter
  · intro jobs machines r h m a b ha hb hab
    have hpw : List.Pairwise disjTriple (r m) :=
      backtracking_result_pairwise jobs machines r h m
    exact List.Pairwise.forall (fun x y hxy => Or.symm hxy) hpw ha hb hab

/-- Claim C2 witness: the amended backtracking statement at a concrete
two-job, one-machine input. -/
theorem C2_precedence_amended_witness :
    disjTriple (1, 0, 5) (2, 5, 8) :=
  C2_precedence_amended.2 [⟨1, 0, 1, 5⟩, ⟨2, 0, 1, 3⟩] [1]
    ((backtracking_algorithm [⟨1, 0, 1, 5⟩, ⟨2, 0, 1, 3⟩] [1]).getD (fun _ => []))
    rfl 1 (1, 0, 5) (2, 5, 8) (by decide) (by decide) (by decide)

/-- Claim C4: on the documented scenario the list scheduler produces exactly
job1@0 on A, job2@0 on B, job3@0 on C, job4@8 on A+B, job5@14 on B+C, with
makespan 18. -/
theorem C4_scenario_list_schedule :
    ((schedule_jobs scenarioJobs scenarioDeps).map
        (fun p => (p.1.job_id, p.2, p.1.required_machines))) =
      [(1, 0, ["A"]), (2, 0, ["B"]), (3, 0, ["C"]),
       (4, 8, ["A", "B"]), (5, 14, ["B", "C"])] ∧
    ((schedule_jobs scenarioJobs scenarioDeps).map
        (fun p => p.2 + p.1.processing_time)).foldl max 0 = 18 :=
  ⟨by decide, by decide⟩

/-- Claim C6: whenever a backtrack call returns failure, the per-machine
interval lists are exactly as they were when that call was entered — every
commit of the failed subtree has been undone by its matching pop. -/
theorem C6_backtrack_restores_state (l : List JobM) (ms ms' : MSched)
    (h : backtrackS l ms = (false, ms')) : ms' = ms := by
  have h1 : (backtrackS l ms).1 = false := by rw [h]
  have h2 := backtrackS_fail_state l ms h1
  rw [h] at h2
  exact h2

/-- A fully booked machine state used to exercise a failing search. -/
def blockedMS : MSched := fun _ => [(9, 0, 1000)]

/-- Claim C6 witness: a concretely failing search (every start in the horizon
collides with the committed interval (9, 0, 1000)) returns the entry state. -/
theorem C6_backtrack_restores_state_witness :
    blockedMS = blockedMS ∧
    backtrackS [⟨1, 0, 1, 5⟩] blockedMS = (false, blockedMS) :=
  ⟨C6_backtrack_restores_state [⟨1, 0, 1, 5⟩] blockedMS blockedMS rfl, rfl⟩

/-- Claim C7: the list scheduler is deterministic — called twice on identical
input it returns the identical Schedule. -/
theorem C7_list_scheduler_deterministic (jobs1 jobs2 : List Job)
    (deps1 deps2 : List (Int × Int)) (hj : jobs1 = jobs2) (hd : deps1 = deps2) :
    schedule_jobs jobs1 deps1 = schedule_jobs jobs2 deps2 := by
  subst hj
  subst hd
  rfl

/-- Claim C7 witness: determinism at the documented scenario input. -/
theorem C7_list_scheduler_deterministic_witness :
    schedule_jobs scenarioJobs scenarioDeps =
      schedule_jobs scenarioJobs scenarioDeps :=
  C7_list_scheduler_deterministic scenarioJobs scenarioJobs scenarioDeps
    scenarioDeps rfl rfl

/-- The dependency check the spec ascribes to the evaluator, stated from the
spec's words for comparison with the source: walking the order, every
predecessor (per the dependency pairs) of each job must already have been
assigned earlier in the same pass. -/
def specPredsAssigned (dependencies : List (Int × Int)) :
    List Int → List Int → Bool
  | [], _ => true
  | i :: rest, assigned =>
    if ((dependencies.filter (fun d => decide (d.2 = i))).map (fun d => d.1)).all
        (fun p => assigned.contains p) then
      specPredsAssigned dependencies rest (assigned ++ [i])
    else false

/-- Claim C3: the claim says evaluate_schedule returns Infeasible (inf) iff
some job's PREDECESSOR has not been assigned earlier in the pass.  The code
instead iterates self.graph[job_id] — the SUCCESSOR list — so on dependency
(1, 2) it scores the topologically valid order [1, 2] as inf (successor 2 is
not yet placed when job 1 is examined) and scores the reversed order [2, 1]
as the finite makespan 2.  Both directions of the claimed iff fail. -/
theorem C3_successor_check_bug :
    specPredsAssigned [(1, 2)] [1, 2] [] = true ∧
    evaluate_schedule [⟨1, 1, ["A"]⟩, ⟨2, 1, ["A"]⟩] [(1, 2)] ["A"] [1, 2] = ⊤ ∧
    specPredsAssigned [(1, 2)] [2, 1] [] = false ∧
    evaluate_schedule [⟨1, 1, ["A"]⟩, ⟨2, 1, ["A"]⟩] [(1, 2)] ["A"] [2, 1] =
      ((2 : Nat) : WithTop Nat) :=
  ⟨by decide, by decide, by decide, by decide⟩

/-- Claim C5: the backtracking solver returns a schedule iff some assignment
of start times below the horizon 100 is feasible (per-machine intervals
pairwise non-overlapping and each start below 100); it reports infeasibility
only once every start in the horizon has been exhausted for the failing job
at every level of the search (the ← direction of the iff), and it always
terminates (backtrackS is a total structurally recursive function).  The
hypothesis pins the inputs on which Python's dict lookups are defined. -/
theorem C5_backtracking_complete (jobs : List JobM) (machines : List Int)
    (hwf : ∀ j ∈ jobs, j.machine ∈ machines) :
    (backtracking_algorithm jobs machines).isSome ↔
      Feasible (fun _ => []) jobs := by
  have h1 : (backtracking_algorithm jobs machines).isSome = true ↔
      (backtrackS jobs (fun _ => [])).1 = true := by
    by_cases hb : (backtrackS jobs (fun _ => [])).1 = true
    · simp [backtracking_algorithm, hb]
    · simp [backtracking_algorithm, hb]
  rw [h1, backtrackS_true_iff, seqFeasible_iff_feasible]

/-- Claim C5 witness: a one-job instance is feasible, extracted from the
concretely computed successful run. -/
theorem C5_backtracking_complete_witness :
    Feasible (fun _ => []) [⟨1, 0, 1, 5⟩] :=
  (C5_backtracking_complete [⟨1, 0, 1, 5⟩] [1] (by decide)).mp (by rfl)

/-- Claim C8 counterexample: main.py's generation loop appends (extend) its
children to the sorted-and-truncated population instead of replacing it: with
population_size 2 and a 2-individual population, one round returns 4
individuals, so the population size is not the same constant at the start of
every round and children do not fully replace the prior generation. -/
theorem C8_counterexample :
    ([[(⟨1, 0, 1, 1⟩ : JobM), ⟨2, 0, 1, 1⟩], [⟨2, 0, 1, 1⟩, ⟨1, 0, 1, 1⟩]] :
        List (List JobM)).length = 2 ∧
    (mainRound [⟨1, 0, 1, 1⟩, ⟨2, 0, 1, 1⟩] [1] 2 (fun _ => ⟨0, 0, false, 0, 0, false, 0, 0⟩)
        [[⟨1, 0, 1, 1⟩, ⟨2, 0, 1, 1⟩], [⟨2, 0, 1, 1⟩, ⟨1, 0, 1, 1⟩]]).length = 4 :=
  ⟨rfl, by decide⟩

/-- Claim C8 (amended): GeneticAlgorithm.py's round generates exactly
population_size children which fully replace the prior generation, so its
population length is population_size after every round, whatever the random
draws.  main.py's round instead appends its 2·⌊t/2⌋ children to the truncated
population of length t = min(population_size, current size), so its
population grows instead of being replaced. -/
theorem C8_population_size_amended :
    (∀ (jobs : List Job) (dependencies : List (Int × Int))
        (machines : List String) (population_size : Nat) (σ : Nat → GAChoice)
        (population : List (List Int)),
        (gaRound jobs dependencies machines population_size σ population).length =
          population_size) ∧
    (∀ (jobs : List JobM) (machines : List Int) (population_size : Nat)
        (σ : Nat → MChoice) (population : List (List JobM)),
        (mainRound jobs machines population_size σ population).length =
          min population_size population.length +
            2 * (min population_size population.length / 2)) := by
  constructor
  · intro jobs dependencies machines ps σ pop
    simp [gaRound, List.length_map, List.enum_length, List.length_range]
  · intro jobs machines ps σ pop
    simp only [mainRound, List.length_append, length_flatMap_two,
      List.enum_length, pairUp_length, List.length_take, sortedPy_length]

/-- Claim C9: when both parents are permutations of the job-id set, the
crossover child (first parent's genes up to the cut, then the second parent's
remaining genes in relative order) is again a permutation of exactly that
set — no duplicate, no missing id. -/
theorem C9_crossover_permutation (S parent1 parent2 : List Int) (point : Nat)
    (hS : S.Nodup) (h1 : parent1.Perm S) (h2 : parent2.Perm S) :
    (crossover parent1 parent2 point).Perm S := by
  rw [List.perm_iff_count]
  intro a
  unfold crossover
  rw [List.count_append]
  have hp1 : parent1.Nodup := h1.nodup_iff.mpr hS
  have hpre : (parent1.take point).Nodup :=
    List.Nodup.sublist (List.take_sublist point parent1) hp1
  by_cases ha : a ∈ parent1.take point
  · have hc1 : List.count a (parent1.take point) = 1 :=
      List.count_eq_one_of_mem hpre ha
    have hc2 : List.count a
        (parent2.filter (fun j => decide (j ∉ parent1.take point))) = 0 := by
      rw [List.count_eq_zero]
      intro hmem
      exact (of_decide_eq_true (List.mem_filter.mp hmem).2) ha
    have haS : a ∈ S :=
      h1.mem_iff.mp ((List.take_sublist point parent1).subset ha)
    rw [hc1, hc2, List.count_eq_one_of_mem hS haS]
  · have hc1 : List.count a (parent1.take point) = 0 :=
      List.count_eq_zero.mpr ha
    have hc2 : List.count a
        (parent2.filter (fun j => decide (j ∉ parent1.take point))) =
        List.count a parent2 :=
      List.count_filter (decide_eq_true ha)
    rw [hc1, hc2, h2.count_eq a, Nat.zero_add]

/-- Claim C9 witness: crossover of two concrete permutations of {1, 2, 3}. -/
theorem C9_crossover_permutation_witness :
    (crossover [1, 2, 3] [3, 1, 2] 1).Perm ([1, 2, 3] : List Int) :=
  C9_crossover_permutation [1, 2, 3] [1, 2, 3] [3, 1, 2] 1
    (by decide) (by decide) (by decide)

/-- Claim C10: main.py's fitness is invariant under permutation of the
individual — it only sums processing times per machine and takes the max — so
any two orderings of the same job list (hence every individual of the GA's
permutation search space) score identically and selection cannot distinguish
candidates. -/
theorem C10_fitness_permutation_invariant (machines : List Int)
    (l1 l2 : List JobM) (h : l1.Perm l2) :
    fitness machines l1 = fitness machines l2 := by
  have key : ∀ m, machine_times_acc l1 (fun _ => 0) m =
      machine_times_acc l2 (fun _ => 0) m := by
    intro m
    rw [machine_times_acc_eq, machine_times_acc_eq]
    rw [List.Perm.sum_eq (List.Perm.map (fun j => j.proc_time)
      (List.Perm.filter (fun j => decide (j.machine = m)) h))]
  unfold fitness
  have hfun : (fun (a : Nat) (m : Int) =>
      max a (machine_times_acc l1 (fun _ => 0) m)) =
      (fun (a : Nat) (m : Int) =>
        max a (machine_times_acc l2 (fun _ => 0) m)) := by
    funext a m
    rw [key m]
  rw [hfun]

/-- Claim C10 witness: two orderings of the same two-job list score the same
fitness. -/
theorem C10_fitness_permutation_invariant_witness :
    fitness [1] [⟨1, 0, 1, 2⟩, ⟨2, 0, 1, 3⟩] =
      fitness [1] [⟨2, 0, 1, 3⟩, ⟨1, 0, 1, 2⟩] :=
  C10_fitness_permutation_invariant [1] _ _ (by decide)
